import Mathlib

/-
Verification of the lydata core against its specification.

Shallow embedding of the relevant parts of the repository:
  * the query algebra of src/lydata/accessor.py (Q, AndQ, OrQ, NotQ, NoneQ,
    QueryPortion),
  * the diagnostic fusion engine of src/lydata/accessor.py
    (_false_estimate, _true_estimate, _max_likelihood, align_diagnoses,
    LyDataAccessor.combine, infer_sublevels, infer_superlevels),
  * update_and_expand of src/lydata/utils.py,
  * the transform engine of src/lydata/validator.py (delete_private_keys,
    flatten, unflatten, get_depth, transform_to_lyprox).

Tables are modelled as association lists of columns keyed by composite keys,
cells of involvement columns as a tri-state type Obs, pandas NA as Option,
Python exceptions as Except, and real-valued probabilities as rationals.
-/

set_option autoImplicit false

namespace Lydata

/-! ## Tri-state observations and tables -/

/-- Tri-state involvement observation: `True` / `False` / missing (`None` or
`NaN`) in the pandas tables. -/
inductive Obs where
  | yes
  | no
  | unk
  deriving DecidableEq, Repr

/-- Composite three-level column key `(domain, group, field)`. -/
abbrev Key3 := String × String × String

/-- A dataframe with columns keyed by `κ` and cells of type `α`.  Rows are
positions `0 .. nrows-1`; every well-formed column list has length `nrows`. -/
structure Table (κ : Type) (α : Type) where
  nrows : Nat
  cols : List (κ × List α)
  deriving Repr

/-- First value stored under key `k` in an association list (pandas column
lookup by key). -/
def lookupVal {κ α : Type} [DecidableEq κ] : List (κ × α) → κ → Option α
  | [], _ => none
  | c :: l, k => if c.1 = k then some c.2 else lookupVal l k

/-- First column stored under key `k` (pandas column lookup). -/
def Table.lookupCol {κ α : Type} [DecidableEq κ] (t : Table κ α) (k : κ) :
    Option (List α) :=
  lookupVal t.cols k

/-! ## Query algebra (accessor.py)

The `Q` object stores a column name (a registered short alias or a full
three-part key), an operator name, and a comparison value; combinators
`AndQ`, `OrQ`, `NotQ` and the neutral `NoneQ` wrap other queries.  Execution
resolves the column at execute time and returns a boolean row mask; a failed
column or operator lookup (a Python `KeyError`) is modelled as `none`.
Cells of queried columns are modelled as integers. -/

/-- Default short-alias registry from `lydata.utils.get_default_column_map`. -/
def defaultColumnMap : List (String × Key3) :=
  [ ("id", ("patient", "#", "id")),
    ("institution", ("patient", "#", "institution")),
    ("sex", ("patient", "#", "sex")),
    ("age", ("patient", "#", "age")),
    ("weight", ("patient", "#", "weight")),
    ("date", ("patient", "#", "diagnose_date")),
    ("surgery", ("patient", "#", "neck_dissection")),
    ("hpv", ("patient", "#", "hpv_status")),
    ("smoke", ("patient", "#", "nicotine_abuse")),
    ("alcohol", ("patient", "#", "alcohol_abuse")),
    ("t_stage", ("tumor", "1", "t_stage")),
    ("n_stage", ("patient", "#", "n_stage")),
    ("m_stage", ("patient", "#", "m_stage")),
    ("midext", ("tumor", "1", "extension")),
    ("subsite", ("tumor", "1", "subsite")),
    ("volume", ("tumor", "1", "volume")),
    ("central", ("tumor", "1", "central")) ]

/-- The value a `Q` object compares a column against: a literal, a list (for
the `in` operator), or a callable applied directly to the column (modelled
element-wise). -/
inductive QVal where
  | lit (n : Int)
  | vals (ns : List Int)
  | callable (f : Int → Bool)

/-- Query AST: `Q` leaves plus the combinators from `CombineQMixin`. -/
inductive Query where
  | Q (colname : String ⊕ Key3) (operator : String) (value : QVal)
  | AndQ (q1 q2 : Query)
  | OrQ (q1 q2 : Query)
  | NotQ (q : Query)
  | NoneQ

/-- The `_OPERATOR_MAP` of class `Q`: apply the named operator element-wise.
An unknown operator name or a value of the wrong shape for the operator is a
runtime error (`none`). -/
def applyOperator (operator : String) (column : List Int) (value : QVal) :
    Option (List Bool) :=
  match operator, value with
  | "==", .lit n => some (column.map (fun x => x == n))
  | "<", .lit n => some (column.map (fun x => x < n))
  | "<=", .lit n => some (column.map (fun x => x ≤ n))
  | ">", .lit n => some (column.map (fun x => x > n))
  | ">=", .lit n => some (column.map (fun x => x ≥ n))
  | "!=", .lit n => some (column.map (fun x => x != n))
  | "in", .vals ns => some (column.map (fun x => ns.contains x))
  | _, _ => none

/-- Resolve the column name of a `Q` leaf as `Q.execute` does: try the short
alias registry first and fall back to the name itself.  A plain string that is
not a registered alias cannot address a column of a three-level table. -/
def resolveColname (colname : String ⊕ Key3) : Option Key3 :=
  match colname with
  | .inl s => lookupVal defaultColumnMap s
  | .inr k => some k

/-- Execution of a query against a table, following the `execute` methods of
`Q`, `AndQ`, `OrQ`, `NotQ` and `NoneQ`.  The mask is a boolean list aligned
with the rows; a lookup failure propagates as `none`. -/
def Query.execute (q : Query) (t : Table Key3 Int) : Option (List Bool) :=
  match q with
  | .Q colname operator value => do
      let key ← resolveColname colname
      let column ← t.lookupCol key
      match value with
      | .callable f => some (column.map f)
      | _ => applyOperator operator column value
  | .AndQ q1 q2 => do
      let m1 ← q1.execute t
      let m2 ← q2.execute t
      some (List.zipWith (· && ·) m1 m2)
  | .OrQ q1 q2 => do
      let m1 ← q1.execute t
      let m2 ← q2.execute t
      some (List.zipWith (· || ·) m1 m2)
  | .NotQ q1 => do
      let m ← q1.execute t
      some (m.map (!·))
  | .NoneQ => some (List.replicate t.nrows true)

/-! ## QueryPortion (accessor.py) -/

/-- Dataclass storing the portion of a query.  The source field `match` is a
reserved word in Lean and is rendered `matchCount`. -/
structure QueryPortion where
  matchCount : Int
  total : Int
  deriving DecidableEq, Repr

/-- Constructor together with the validation of `QueryPortion.__post_init__`;
a `ValueError` is an `Except.error` carrying the message. -/
def mkQueryPortion (matchCount total : Int) : Except String QueryPortion :=
  if total < 0 then
    .error ("Total must be non-negative.")
  else if matchCount < 0 then
    .error ("Match must be non-negative.")
  else if matchCount > total then
    .error ("Match must be less than or equal to total.")
  else
    .ok ⟨matchCount, total⟩

/-! ## update_and_expand (utils.py)

pandas `DataFrame.update` combines cells of columns present in both frames
(row-aligned by index, modelled positionally); `update_and_expand` then adds
the columns of `right` that `left` lacks.  The pandas keyword `overwrite`
(default `True`) is passed through `update_kwargs` and is modelled as an
explicit argument; other update keywords are not modelled. -/

/-- Cell-wise behaviour of `DataFrame.update`: with `overwrite = true`
(the pandas default) every non-missing cell of `right` wins; with
`overwrite = false` only missing cells of `left` are filled. -/
def updateCell {α : Type} (overwrite : Bool) (lv rv : Option α) : Option α :=
  if overwrite then
    match rv with
    | some v => some v
    | none => lv
  else
    match lv with
    | some v => some v
    | none => rv

/-- The function `update_and_expand` of utils.py: update `left` with `right`
cell-wise, then append every column of `right` whose key is not yet present. -/
def updateAndExpand {κ α : Type} [DecidableEq κ]
    (left right : List (κ × List (Option α))) (overwrite : Bool) :
    List (κ × List (Option α)) :=
  let updated := left.map (fun c =>
    match lookupVal right c.1 with
    | none => c
    | some rv => (c.1, List.zipWith (updateCell overwrite) c.2 rv))
  right.foldl
    (fun acc c => if (lookupVal acc c.1).isSome then acc else acc ++ [c])
    updated

/-! ## Diagnostic fusion engine (accessor.py)

Probabilities are modelled as rationals; a missing observation (`None` /
`NaN`) is `Obs.unk`. -/

/-- Aggregation selector of `_false_estimate` / `_true_estimate`: `np.prod`
or `np.max`.  All call sites pass the literals "prod" and "max", so the
raising fallback `_create_raising_func` for unknown names is unreachable and
not modelled. -/
inductive AggMethod where
  | prod
  | max
  deriving DecidableEq, Repr

/-- Aggregate a list of likelihoods; `np.prod` of an empty array is 1 (the
fold order of the product is immaterial in the rationals).  `np.max` is only
applied to non-empty arrays at the call sites; 0 stands in for the empty
case. -/
def aggList : AggMethod → List ℚ → ℚ
  | .prod, l => l.prod
  | .max, l => l.foldl Max.max 0

/-- Three-way zip used to mirror element-wise `np.where` over aligned
arrays. -/
def zipWith3 {α β γ δ : Type} (f : α → β → γ → δ) :
    List α → List β → List γ → List δ
  | a :: as, b :: bs, c :: cs => f a b c :: zipWith3 f as bs cs
  | _, _, _ => []

/-- The function `_false_estimate`: `np.where(obs, false_pos_probs,
true_neg_probs)` followed by masking missing observations with the neutral
element (1 for prod, 0 for max), then aggregating.  Which branch `np.where`
picks for a missing observation is irrelevant because the mask replaces it. -/
def falseEstimate (obs : List Obs) (falsePosProbs trueNegProbs : List ℚ)
    (method : AggMethod) : ℚ :=
  aggList method (zipWith3 (fun o fp tn =>
    match o with
    | .yes => fp
    | .no => tn
    | .unk => match method with | .prod => 1 | .max => 0)
    obs falsePosProbs trueNegProbs)

/-- The function `_true_estimate`, dual to `_false_estimate`. -/
def trueEstimate (obs : List Obs) (truePosProbs falseNegProbs : List ℚ)
    (method : AggMethod) : ℚ :=
  aggList method (zipWith3 (fun o tp fn =>
    match o with
    | .yes => tp
    | .no => fn
    | .unk => match method with | .prod => 1 | .max => 0)
    obs truePosProbs falseNegProbs)

/-- The function `_max_likelihood`: output true iff the healthy likelihood is
strictly below the involved likelihood, both aggregated by product. -/
def maxLikelihood (obs : List Obs) (specificities sensitivities : List ℚ) :
    Bool :=
  let healthyLLH :=
    falseEstimate obs (specificities.map (1 - ·)) specificities .prod
  let involvedLLHs :=
    trueEstimate obs sensitivities (sensitivities.map (1 - ·)) .prod
  decide (healthyLLH < involvedLLHs)

/-- The function `_rank_trustworthy`: like `_max_likelihood` with maximum
instead of product. -/
def rankTrustworthy (obs : List Obs) (specificities sensitivities : List ℚ) :
    Bool :=
  let healthyLLH :=
    falseEstimate obs (specificities.map (1 - ·)) specificities .max
  let involvedLLHs :=
    trueEstimate obs sensitivities (sensitivities.map (1 - ·)) .max
  decide (healthyLLH < involvedLLHs)

/-- The specification's per-modality involved-likelihood contribution. -/
def involvedContribution (sens : ℚ) : Obs → ℚ
  | .yes => sens
  | .no => 1 - sens
  | .unk => 1

/-- The specification's per-modality healthy-likelihood contribution. -/
def healthyContribution (spec : ℚ) : Obs → ℚ
  | .yes => 1 - spec
  | .no => spec
  | .unk => 1

/-- Product aggregation (`np.prod`). -/
def prodList (l : List ℚ) : ℚ := l.prod

/-- Modality configuration: sensitivity and specificity.  The pydantic range
validation and the clinical/pathological kind are not touched by the claims
under verification. -/
structure ModalityConfig where
  spec : ℚ
  sens : ℚ
  deriving DecidableEq, Repr

/-- The non-modality top-level columns excluded by
`LyDataAccessor.get_modalities` with its default filter. -/
def nonModalityColumns : List String :=
  ["patient", "tumor", "total_dissected", "positive_dissected",
    "enbloc_dissected", "enbloc_positive"]

/-- The method `get_modalities`: unique top-level column names with the
default non-modality names removed. -/
def Table.getModalities {α : Type} (t : Table Key3 α) : List String :=
  nonModalityColumns.foldl (fun acc nm => acc.erase nm)
    (t.cols.map (fun c => c.1.1)).eraseDups

/-- Fusion method selector of `LyDataAccessor.combine` (the keys of
`funcs1d`). -/
inductive CombineMethod where
  | max_llh
  | rank
  deriving DecidableEq, Repr

/-- The per-cell function chosen by `combine`; arguments are the observation
tuple across modalities, the specificities and the sensitivities. -/
def combineCellFn : CombineMethod → List Obs → List ℚ → List ℚ → Bool
  | .max_llh => maxLikelihood
  | .rank => rankTrustworthy

/-- The `(side, level)` column keys of one modality with the `info` group
dropped, as produced inside `align_diagnoses`. -/
def modalitySubKeys (t : Table Key3 Obs) (modality : String) :
    List (String × String) :=
  (t.cols.filter (fun c => c.1.1 = modality && c.1.2.1 != "info")).map
    (fun c => c.1.2)

/-- Strict lexicographic order on `(side, level)` keys; pandas `align` with an
outer join sorts the united column index. -/
def key2Lt (a b : String × String) : Bool :=
  a.1 < b.1 || (a.1 = b.1 && a.2 < b.2)

/-- Insertion into a sorted key list. -/
def insertKey2 (x : String × String) :
    List (String × String) → List (String × String)
  | [] => [x]
  | y :: ys => if key2Lt x y then x :: y :: ys else y :: insertKey2 x ys

/-- Insertion sort of `(side, level)` keys. -/
def sortKey2 (l : List (String × String)) : List (String × String) :=
  l.foldr insertKey2 []

/-- Observation of table `t` at column `k`, row `i`; a `(side, level)`
combination missing for one modality becomes a missing observation after the
outer-join alignment of `align_diagnoses`. -/
def Table.cellObs (t : Table Key3 Obs) (k : Key3) (i : Nat) : Obs :=
  match t.lookupCol k with
  | none => .unk
  | some vs => vs.getD i .unk

/-- The method `LyDataAccessor.combine`: restrict the requested modalities to
those present as top-level column groups (both the dictionary comprehension in
`combine` and the `KeyError` branch of `align_diagnoses` skip absent
modalities silently), align the per-modality `(side, level)` sub-tables on the
union of their column keys, and fuse each cell with the chosen method.  With
no present modality, `diagnosis_stack[0]` raises an `IndexError`, modelled as
`none`. -/
def combine (t : Table Key3 Obs) (modalities : List (String × ModalityConfig))
    (method : CombineMethod) : Option (Table (String × String) Obs) :=
  let present := modalities.filter (fun mc => t.getModalities.contains mc.1)
  match present with
  | [] => none
  | _ :: _ =>
    let sharedKeys :=
      sortKey2 ((present.map (fun mc => modalitySubKeys t mc.1)).flatten.eraseDups)
    let specs := present.map (fun mc => mc.2.spec)
    let senss := present.map (fun mc => mc.2.sens)
    some
      { nrows := t.nrows,
        cols := sharedKeys.map (fun sk =>
          (sk, (List.range t.nrows).map (fun i =>
            let obs := present.map (fun mc => t.cellObs (mc.1, sk.1, sk.2) i)
            if combineCellFn method obs specs senss then Obs.yes else Obs.no))) }

/-! ## Super- and sublevel inference (accessor.py) -/

/-- Default superlevel subdivisions of `infer_sublevels` and
`infer_superlevels`. -/
def defaultSubdivisions : List (String × List String) :=
  [("I", ["a", "b"]), ("II", ["a", "b"]), ("V", ["a", "b"])]

/-- The `itertools.product(modalities, sides, subdivisions.items())` loop
order. -/
def loopCombinations (modalities sides : List String)
    (subdivisions : List (String × List String)) :
    List (String × String × String × List String) :=
  modalities.flatMap (fun m =>
    sides.flatMap (fun s =>
      subdivisions.map (fun sd => (m, s, sd.1, sd.2))))

/-- Row-wise sublevel value of `infer_sublevels`: rows where the superlevel
observation equals `False` get `False`, all other rows get `None`. -/
def sublevelMark : Obs → Obs
  | .no => .no
  | _ => .unk

/-- The method `infer_sublevels`: the result holds only the newly inferred
sublevel columns; a combination whose superlevel column is missing is skipped
(`KeyError` branch). -/
def Table.inferSublevels (t : Table Key3 Obs) (modalities sides : List String)
    (subdivisions : List (String × List String)) : Table Key3 Obs :=
  { nrows := t.nrows,
    cols := (loopCombinations modalities sides subdivisions).flatMap
      (fun comb =>
        match t.lookupCol (comb.1, comb.2.1, comb.2.2.1) with
        | none => []
        | some vs => comb.2.2.2.map (fun subid =>
            ((comb.1, comb.2.1, comb.2.2.1 ++ subid), vs.map sublevelMark))) }

/-- Row-wise superlevel value of `infer_superlevels`.  The three sequential
masked assignments (`False` where no sublevel is involved, `True` where any
sublevel is involved, `None` where all sublevels are missing, in that order,
with `any`/`all` skipping missing values) collapse to: `True` if any sublevel
is `True`, else `None` if all sublevels are missing, else `False`. -/
def superlevelMark (row : List Obs) : Obs :=
  if row.any (· == .yes) then .yes
  else if row.all (· == .unk) then .unk
  else .no

/-- The method `infer_superlevels`: the result holds only the newly inferred
superlevel columns; a combination with any sublevel column missing is skipped
(`KeyError` branch). -/
def Table.inferSuperlevels (t : Table Key3 Obs)
    (modalities sides : List String)
    (subdivisions : List (String × List String)) : Table Key3 Obs :=
  { nrows := t.nrows,
    cols := (loopCombinations modalities sides subdivisions).flatMap
      (fun comb =>
        match (comb.2.2.2.map (fun subid =>
            (comb.1, comb.2.1, comb.2.2.1 ++ subid))).mapM t.lookupCol with
        | none => []
        | some colVals => [((comb.1, comb.2.1, comb.2.2.1),
            (List.range t.nrows).map (fun i =>
              superlevelMark (colVals.map (fun vs => vs.getD i .unk))))]) }

/-! ## Transform engine (validator.py)

The mapping specifications handed to `transform_to_lyprox` are Python
dictionaries with string keys whose values are nested dictionaries or opaque
leaves: plain scalars, lists of column names, and callables.  The dictionary
layer is embedded faithfully (insertion order, first-match lookup, in-place
update); callables consume scalar row values and keyword arguments and may
raise. -/

/-- Scalar cell values of raw tables and of instruction components. -/
inductive Val where
  | str (s : String)
  | int (n : Int)
  | bool (b : Bool)
  | none
  deriving DecidableEq, Repr

/-- Leaf payloads of a mapping tree: plain values, lists of source column
names, and the callables stored under `func`.  A callable receives the
positional row values and the keyword arguments; raising is `Except.error`. -/
inductive PyLeaf where
  | val (v : Val)
  | strList (ss : List String)
  | func (f : List Val → List (String × Val) → Except String Val)

mutual
/-- A Python value inside a mapping specification: a dictionary or a leaf. -/
inductive PyVal where
  | scalar (l : PyLeaf)
  | dict (es : PyDict)

/-- A Python dictionary with string keys in insertion order. -/
inductive PyDict where
  | nil
  | cons (k : String) (v : PyVal) (rest : PyDict)
end

/-- Key containment (`key in d`). -/
def PyDict.hasKey : PyDict → String → Bool
  | .nil, _ => false
  | .cons k _ rest, key => k == key || rest.hasKey key

/-- Subscript access (`d[key]`), first match. -/
def PyDict.get? : PyDict → String → Option PyVal
  | .nil, _ => Option.none
  | .cons k v rest, key => if k == key then some v else rest.get? key

/-- Assignment `d[key] = v`: replace the first binding in place or append a
new one (Python dictionaries keep insertion order on update). -/
def PyDict.setKey : PyDict → String → PyVal → PyDict
  | .nil, key, v => .cons key v .nil
  | .cons k w rest, key, v =>
      if k == key then .cons k v rest else .cons k w (rest.setKey key v)

/-- Emptiness test. -/
def PyDict.isNil : PyDict → Bool
  | .nil => true
  | .cons _ _ _ => false

/-- Concatenation of two dictionaries (used only to state theorems). -/
def PyDict.append : PyDict → PyDict → PyDict
  | .nil, e2 => e2
  | .cons k v rest, e2 => .cons k v (rest.append e2)

/-- The keys of a dictionary in order. -/
def keysOf : PyDict → List String
  | .nil => []
  | .cons k _ rest => k :: keysOf rest

/-- The test `key.startswith("_")`, written on the character list. -/
def startsWithUnderscore (s : String) : Bool :=
  match s.data with
  | [] => false
  | c :: _ => c == '_'

/-- The function `delete_private_keys` on dictionaries: drop every entry
whose key starts with an underscore, recursing into the kept dictionary
values; other values pass through unchanged. -/
def deletePrivateKeysD : PyDict → PyDict
  | .nil => .nil
  | .cons k (.dict sub) rest =>
      if startsWithUnderscore k then deletePrivateKeysD rest
      else .cons k (.dict (deletePrivateKeysD sub)) (deletePrivateKeysD rest)
  | .cons k (.scalar l) rest =>
      if startsWithUnderscore k then deletePrivateKeysD rest
      else .cons k (.scalar l) (deletePrivateKeysD rest)

/-- A dictionary is a leaf instruction when its keys meet
`{"func", "default"}` (the `is_leaf` test of `get_depth`). -/
def PyDict.isLeafInstruction (es : PyDict) : Bool :=
  es.hasKey ("func") || es.hasKey ("default")

/-- The function `get_depth`: look at the first entry only — the loop body
returns during its first iteration — requiring its value to be a dictionary,
which either is a leaf instruction (depth 1) or is recursed into.  An empty
map is a `ValueError`, as is a non-dictionary value. -/
def getDepth : PyDict → Except String Nat
  | .nil => .error ("Empty nested_map.")
  | .cons _ (.scalar _) _ =>
      .error ("Leaf of nested map must be dict with any of default, func.")
  | .cons _ (.dict sub) _ =>
      if sub.isLeafInstruction then .ok 1
      else (getDepth sub).map (fun d => 1 + d)

/-- The function `flatten` with its accumulating `prev_key` argument.  All
call sites under verification pass a concrete `max_depth`, so the `None`
default is not modelled.  The Python guard `len(prev_key) >= max_depth - 1`
is `prevKey.length + 1 ≥ maxDepth`, which agrees with the Python integer
arithmetic for every `maxDepth`, including 0. -/
def flattenAux (maxDepth : Nat) : List String → PyDict →
    List (List String × PyVal)
  | _, .nil => []
  | prevKey, .cons k (.dict sub) rest =>
      (if prevKey.length + 1 ≥ maxDepth then [(prevKey ++ [k], PyVal.dict sub)]
       else flattenAux maxDepth (prevKey ++ [k]) sub) ++
        flattenAux maxDepth prevKey rest
  | prevKey, .cons k (.scalar l) rest =>
      (prevKey ++ [k], PyVal.scalar l) :: flattenAux maxDepth prevKey rest

/-- The function `flatten` applied at the top level. -/
def flatten (nested : PyDict) (maxDepth : Nat) : List (List String × PyVal) :=
  flattenAux maxDepth [] nested

/-- Depth-relative reformulation of `flatten` with the prefix factored out;
`r` is the number of levels left before the maximal depth is reached. -/
def flatRel : Nat → PyDict → List (List String × PyVal)
  | _, .nil => []
  | r, .cons k (.dict sub) rest =>
      (if r ≤ 1 then [([k], PyVal.dict sub)]
       else (flatRel (r - 1) sub).map (fun kv => (k :: kv.1, kv.2))) ++
        flatRel r rest
  | r, .cons k (.scalar l) rest => ([k], PyVal.scalar l) :: flatRel r rest

/-- One entry of `unflatten`: walk the key tuple with `setdefault(key, {})`
and assign the value at the last key.  Traversal through an existing
non-dictionary value is a Python `TypeError`; an empty key tuple is an
`IndexError`. -/
def insertPath : PyDict → List String → PyVal → Except String PyDict
  | _, [], _ => .error ("IndexError: empty key tuple")
  | acc, [k], v => .ok (acc.setKey k v)
  | acc, k :: k2 :: ks, v =>
      match acc.get? k with
      | Option.none =>
          (insertPath .nil (k2 :: ks) v).map (fun sub => acc.setKey k (.dict sub))
      | some (.dict sub) =>
          (insertPath sub (k2 :: ks) v).map (fun sub2 => acc.setKey k (.dict sub2))
      | some (.scalar _) => .error ("TypeError: value is not a dict")

/-- Folding `insertPath` over a flat map, starting from `acc`; the first
error aborts. -/
def insertAll : PyDict → List (List String × PyVal) → Except String PyDict
  | acc, [] => .ok acc
  | acc, (ks, v) :: rest =>
      match insertPath acc ks v with
      | .error e => .error e
      | .ok acc2 => insertAll acc2 rest

/-- The function `unflatten`. -/
def unflatten (flat : List (List String × PyVal)) : Except String PyDict :=
  insertAll .nil flat

/-- The uniform-depth hypothesis exactly as the claim words it: every value
above depth `d` is itself a dictionary; values at depth `d` — the leaves —
are unconstrained. -/
def depthUniform : Nat → PyDict → Bool
  | 0, _ => false
  | 1, _ => true
  | _ + 2, .nil => true
  | d + 2, .cons _ (.dict sub) rest =>
      depthUniform (d + 1) sub && depthUniform (d + 2) rest
  | _ + 2, .cons _ (.scalar _) _ => false

/-- The values of a dictionary in order. -/
def valuesOf : PyDict → List PyVal
  | .nil => []
  | .cons _ v rest => v :: valuesOf rest

/-- Entry-wise well-formedness of a uniform-depth mapping: distinct keys (an
invariant of Python dictionaries) and, above depth `d`, only non-empty
dictionary values.  The dictionary itself may be empty, so the predicate also
applies to tails of entry sequences. -/
def wfEntrySeq : Nat → PyDict → Bool
  | 0, _ => false
  | 1, es => decide (keysOf es).Nodup
  | d + 2, es =>
      decide (keysOf es).Nodup &&
        (valuesOf es).all (fun v =>
          match v with
          | .dict sub => wfEntrySeq (d + 1) sub && !sub.isNil
          | .scalar _ => false)

/-- Well-formed uniform-depth mapping: every value above depth `d` is a
non-empty dictionary with distinct keys (non-emptiness is the amendment the
roundtrip needs; distinct keys are an invariant of Python dictionaries). -/
def wfMapping (d : Nat) (es : PyDict) : Bool :=
  wfEntrySeq d es && !es.isNil

/-- An instruction tree whose leaf instructions all sit at depth `d`: above
the leaves every value is a non-empty, non-leaf dictionary, and at depth `d`
every value is a leaf instruction. -/
def instrUniform : Nat → PyDict → Bool
  | 0, _ => false
  | _, .nil => true
  | 1, .cons _ (.dict sub) rest => sub.isLeafInstruction && instrUniform 1 rest
  | 1, .cons _ (.scalar _) _ => false
  | d + 2, .cons _ (.dict sub) rest =>
      !sub.isLeafInstruction && !sub.isNil && instrUniform (d + 1) sub &&
        instrUniform (d + 2) rest
  | _ + 2, .cons _ (.scalar _) _ => false

mutual
/-- Depths of every leaf instruction — every dictionary carrying a `func` or
`default` key — anywhere inside a value sitting at depth `cur`. -/
def leafDepthsV (cur : Nat) : PyVal → List Nat
  | .scalar _ => []
  | .dict es => (if es.isLeafInstruction then [cur] else []) ++ leafDepthsD cur es

/-- Depths of every leaf instruction inside the values of a dictionary whose
entries sit at depth `cur + 1`. -/
def leafDepthsD (cur : Nat) : PyDict → List Nat
  | .nil => []
  | .cons _ v rest => leafDepthsV (cur + 1) v ++ leafDepthsD cur rest
end

/-- All leaf instructions of a mapping tree sit at one common depth. -/
def uniformLeafDepths (m : PyDict) : Bool :=
  match leafDepthsD 0 m with
  | [] => true
  | d :: rest => rest.all (· == d)

/-- A raw institutional table: named columns of scalar cells, each of length
`nrows`. -/
structure RawTable where
  nrows : Nat
  cols : List (String × List Val)

/-- The expression `raw[cols].values` iterated row-wise: selecting a missing
column raises a `KeyError`. -/
def RawTable.rowVals (raw : RawTable) (colnames : List String) :
    Except String (List (List Val)) :=
  match colnames.mapM (fun c => lookupVal raw.cols c) with
  | Option.none => .error ("KeyError: missing raw column")
  | some colsVals =>
      .ok ((List.range raw.nrows).map (fun i =>
        colsVals.map (fun vs => vs.getD i Val.none)))

/-- Python `in` applied to an instruction: key containment for dictionaries,
substring test for strings, membership for lists, a `TypeError` otherwise. -/
def pyContains (inst : PyVal) (key : String) : Except String Bool :=
  match inst with
  | .dict es => .ok (es.hasKey key)
  | .scalar (.val (.str s)) => .ok ((s.splitOn key).length > 1)
  | .scalar (.strList ss) => .ok (ss.contains key)
  | _ => .error ("TypeError: argument of this type is not iterable")

/-- Python `instruction == ""`: only the empty string itself compares
equal. -/
def PyVal.isEmptyStr : PyVal → Bool
  | .scalar (.val (.str s)) => s == ""
  | _ => false

/-- Calling the value stored under `func`: only callables can be applied. -/
def applyFunc (fv : PyVal) (args : List Val) (kwargs : List (String × Val)) :
    Except String Val :=
  match fv with
  | .scalar (.func f) => f args kwargs
  | _ => .error ("TypeError: object is not callable")

/-- The value of `instruction.get("columns", [])`; a value of another shape
would fail inside the guarded comprehension when used for indexing. -/
def columnsOf (es : PyDict) : Except String (List String) :=
  match es.get? ("columns") with
  | Option.none => .ok []
  | some (.scalar (.strList ss)) => .ok ss
  | some _ => .error ("TypeError: invalid columns value")

/-- Keyword arguments: `instruction.get("kwargs", {})` converted to pairs of
names and scalars; keyword values of other shapes are outside the model. -/
def PyDict.toValPairs : PyDict → Except String (List (String × Val))
  | .nil => .ok []
  | .cons k (.scalar (.val w)) rest =>
      (rest.toValPairs).map (fun l => (k, w) :: l)
  | .cons _ _ _ => .error ("unmodelled keyword argument value")

/-- The keyword arguments of an instruction. -/
def kwargsOf (es : PyDict) : Except String (List (String × Val)) :=
  match es.get? ("kwargs") with
  | Option.none => .ok []
  | some (.dict kes) => kes.toValPairs
  | some _ => .error ("TypeError: invalid kwargs value")

/-- Rendering of a destination key in error messages.  Python prints the
tuple with quoted components; the quoting is immaterial and omitted here. -/
def keyRepr (key : List String) : String :=
  "(" ++ String.intercalate (", ") key ++ ")"

/-- Processing of one destination column of `transform_to_lyprox` (one
iteration of its loop).  The empty-string skip branch leaves the column
unassigned; once the frame has rows pandas renders it as missing values,
modelled as a column of `Val.none`.  Everything inside the guarded
comprehension — source lookup, row gathering, each call of `func` — is caught
and re-raised as a `ParsingError` naming the destination column.  An
instruction with neither `default` nor `func` is the other `ParsingError`. -/
def evalColumn (raw : RawTable) (key : List String) (inst : PyVal) :
    Except String (List Val) :=
  if inst.isEmptyStr then .ok (List.replicate raw.nrows Val.none)
  else do
    let hasDefault ← pyContains inst ("default")
    if hasDefault then
      match inst with
      | .dict es =>
          match es.get? ("default") with
          | some (.scalar (.val v)) => .ok (List.replicate raw.nrows v)
          | _ => .error ("unmodelled default value")
      | _ => .error ("TypeError: value is not subscriptable")
    else do
      let hasFunc ← pyContains inst ("func")
      if hasFunc then
        match inst with
        | .dict es =>
            match (do
              let cols ← columnsOf es
              let kwargs ← kwargsOf es
              let rows ← raw.rowVals cols
              rows.mapM (fun args =>
                applyFunc ((es.get? ("func")).getD (PyVal.scalar (.val Val.none)))
                  args kwargs) : Except String (List Val)) with
            | .ok vals => .ok vals
            | .error _ =>
                .error ("Exception encountered while parsing column " ++ keyRepr key)
        | _ => .error ("TypeError: value is not subscriptable")
      else
        .error ("Column " ++ keyRepr key ++
          " has neither a default value nor func describing how to fill this column.")

/-- The destination-column loop of `transform_to_lyprox`: columns are
processed in map order and the first raised error aborts the whole
transform. -/
def processColumns (raw : RawTable) :
    List (List String × PyVal) → Except String (List (List String × List Val))
  | [] => .ok []
  | (key, inst) :: rest =>
      match evalColumn raw key inst with
      | .error e => .error e
      | .ok vals =>
          match processColumns raw rest with
          | .error e => .error e
          | .ok out => .ok ((key, vals) :: out)

/-- A depth-one map is processed with its original keys; they are rendered as
singleton tuples. -/
def dictToPairs : PyDict → List (List String × PyVal)
  | .nil => []
  | .cons k v rest => ([k], v) :: dictToPairs rest

/-- The function `transform_to_lyprox`: strip private keys, compute the
instruction depth (from the first branch), flatten when the depth exceeds
one, then fill every destination column in order.  The construction of the
empty pandas frame over the `MultiIndex` of destination keys is not
modelled. -/
def transformToLyprox (raw : RawTable) (columnMap : PyDict) :
    Except String (List (List String × List Val)) := do
  let cm := deletePrivateKeysD columnMap
  let instructionDepth ← getDepth cm
  let flat := if instructionDepth > 1 then flatten cm instructionDepth
              else dictToPairs cm
  processColumns raw flat

/-! ### Concrete mapping specifications used by the claims -/

/-- Mapping with an age column whose function raises on every row and a name
column with a constant default. -/
def exampleC1Map : PyDict :=
  .cons ("patient") (.dict (.cons ("#") (.dict
    (.cons ("age") (.dict
      (.cons ("func") (.scalar (.func (fun _ _ => .error ("boom"))))
        (.cons ("columns") (.scalar (.strList ["age"])) .nil)))
      (.cons ("name") (.dict
        (.cons ("default") (.scalar (.val (.str "anon"))) .nil)) .nil)))
    .nil)) .nil

/-- A one-row raw table with an age column. -/
def exampleC1Raw : RawTable := ⟨1, [("age", [Val.str "61"])]⟩

/-- Mapping with leaf instructions at depths 2, 2 and 3: the leaf under
b → c → d sits one level deeper than the others, and the instruction at
b → c carries both a `default` key and the nested dictionary. -/
def exampleC2Map : PyDict :=
  .cons ("a") (.dict (.cons ("x") (.dict
    (.cons ("default") (.scalar (.val (.int 1))) .nil)) .nil))
  (.cons ("b") (.dict (.cons ("c") (.dict
    (.cons ("default") (.scalar (.val (.int 2)))
      (.cons ("d") (.dict (.cons ("func") (.scalar (.val (.str "f"))) .nil))
        .nil))) .nil)) .nil)

/-- A one-row raw table for the depth-mismatch example. -/
def exampleC2Raw : RawTable := ⟨1, [("src", [Val.int 0])]⟩

/-- A non-empty map whose single value is an empty dictionary: uniform at
depth 2 in the claim's sense, yet it does not survive the flatten/unflatten
roundtrip. -/
def exampleEmptyLeafMap : PyDict := .cons ("a") (.dict .nil) .nil

/-- The nested doctest map of `flatten`, with leaves at depth 3. -/
def exampleRoundtripMap : PyDict :=
  .cons ("tumor") (.dict (.cons ("1") (.dict
    (.cons ("t_stage") (.scalar (.val (.int 1)))
      (.cons ("size") (.scalar (.val (.str "12.3"))) .nil))) .nil)) .nil

end Lydata

namespace Lydata

/-! ## Theorems: query algebra -/

/-- C7: for all predicates A and B and every table T, the mask of the
conjunction equals the element-wise logical AND of the individual masks, and
double negation is the identity on masks. -/
theorem query_and_not_masks (A B : Query) (t : Table Key3 Int)
    (ma mb : List Bool) (hA : A.execute t = some ma)
    (hB : B.execute t = some mb) :
    (Query.AndQ A B).execute t = some (List.zipWith (· && ·) ma mb) ∧
    (Query.NotQ (Query.NotQ A)).execute t = some ma := by
  constructor
  · simp [Query.execute, hA, hB]
  · simp [Query.execute, hA, Function.comp_def, Bool.not_not]

/-- Witness for C7 on a concrete table and pair of queries. -/
theorem query_and_not_masks_witness :
    (Query.AndQ (Query.Q (.inl "age") (">") (.lit 55))
        (Query.Q (.inr ("patient", "#", "age")) ("<") (.lit 70))).execute
      ⟨3, [(("patient", "#", "age"), [61, 52, 73])]⟩ =
        some [true, false, false] ∧
    (Query.NotQ (Query.NotQ (Query.Q (.inl "age") (">") (.lit 55)))).execute
      ⟨3, [(("patient", "#", "age"), [61, 52, 73])]⟩ =
        some [true, false, true] :=
  query_and_not_masks _ _ _ [true, false, true] [true, true, false]
    (by decide) (by decide)

/-- C8: constructing `QueryPortion(match, total)` fails exactly when
`match > total`, `match < 0` or `total < 0`, and every successfully
constructed portion satisfies `0 ≤ match ≤ total`. -/
theorem queryportion_invariant (m t : Int) :
    ((∃ e, mkQueryPortion m t = .error e) ↔ (m > t ∨ m < 0 ∨ t < 0)) ∧
    (∀ qp, mkQueryPortion m t = .ok qp →
      0 ≤ qp.matchCount ∧ qp.matchCount ≤ qp.total) := by
  unfold mkQueryPortion
  constructor
  · constructor
    · rintro ⟨e, he⟩
      by_contra hcon
      push_neg at hcon
      obtain ⟨h1, h2, h3⟩ := hcon
      rw [if_neg (by omega), if_neg (by omega), if_neg (by omega)] at he
      exact Except.noConfusion he
    · intro h
      split
      · exact ⟨_, rfl⟩
      · split
        · exact ⟨_, rfl⟩
        · split
          · exact ⟨_, rfl⟩
          · omega
  · intro qp hqp
    split at hqp
    · exact Except.noConfusion hqp
    · split at hqp
      · exact Except.noConfusion hqp
      · split at hqp
        · exact Except.noConfusion hqp
        · cases hqp
          constructor
          · simpa using by omega
          · simpa using by omega

/-- Witness for C8: `QueryPortion(5, 2)` fails, `QueryPortion(2, 5)` succeeds
with the invariant holding. -/
theorem queryportion_invariant_witness :
    (∃ e, mkQueryPortion 5 2 = .error e) ∧
    (0 ≤ (QueryPortion.mk 2 5).matchCount ∧
      (QueryPortion.mk 2 5).matchCount ≤ (QueryPortion.mk 2 5).total) :=
  ⟨(queryportion_invariant 5 2).1.mpr (by decide),
    (queryportion_invariant 2 5).2 ⟨2, 5⟩ rfl⟩

/-! ## Theorems: maximum-likelihood fusion -/

/-- The healthy likelihoods assembled by `_false_estimate` with the product
method coincide with the per-modality healthy contributions of the
specification. -/
theorem falseEstimate_prod_eq :
    ∀ (obs : List Obs) (specs : List ℚ),
      falseEstimate obs (specs.map (1 - ·)) specs .prod =
        prodList ((obs.zip specs).map (fun p => healthyContribution p.2 p.1)) := by
  intro obs
  induction obs with
  | nil => intro specs; cases specs <;> rfl
  | cons o obs ih =>
    intro specs
    cases specs with
    | nil => rfl
    | cons s specs =>
      have h := ih specs
      simp only [falseEstimate, aggList, zipWith3, List.map_cons,
        List.zip_cons_cons, List.prod_cons, prodList] at h ⊢
      cases o <;> simp [healthyContribution, h]

/-- The involved likelihoods assembled by `_true_estimate` with the product
method coincide with the per-modality involved contributions of the
specification. -/
theorem trueEstimate_prod_eq :
    ∀ (obs : List Obs) (senss : List ℚ),
      trueEstimate obs senss (senss.map (1 - ·)) .prod =
        prodList ((obs.zip senss).map (fun p => involvedContribution p.2 p.1)) := by
  intro obs
  induction obs with
  | nil => intro senss; cases senss <;> rfl
  | cons o obs ih =>
    intro senss
    cases senss with
    | nil => rfl
    | cons s senss =>
      have h := ih senss
      simp only [trueEstimate, aggList, zipWith3, List.map_cons,
        List.zip_cons_cons, List.prod_cons, prodList] at h ⊢
      cases o <;> simp [involvedContribution, h]

/-- C5: `max_llh` fusion computes per modality an involved likelihood (sens if
observed true, 1 − sens if false, 1 if unknown) and a healthy likelihood
(1 − spec if true, spec if false, 1 if unknown), aggregates each by product,
and outputs true iff the involved product strictly exceeds the healthy
product; with every observation unknown the fused value is false. -/
theorem combine_max_llh_formula (obs : List Obs) (specs senss : List ℚ) :
    (maxLikelihood obs specs senss = true ↔
      prodList ((obs.zip specs).map (fun p => healthyContribution p.2 p.1)) <
        prodList ((obs.zip senss).map (fun p => involvedContribution p.2 p.1))) ∧
    ((∀ o ∈ obs, o = Obs.unk) → maxLikelihood obs specs senss = false) := by
  have hrw : maxLikelihood obs specs senss =
      decide
        (prodList ((obs.zip specs).map (fun p => healthyContribution p.2 p.1)) <
          prodList ((obs.zip senss).map (fun p => involvedContribution p.2 p.1))) := by
    simp only [maxLikelihood, falseEstimate_prod_eq, trueEstimate_prod_eq]
  constructor
  · rw [hrw]
    exact decide_eq_true_iff
  · intro hunk
    have h1 : prodList ((obs.zip specs).map (fun p => healthyContribution p.2 p.1)) = 1 := by
      unfold prodList
      apply List.prod_eq_one
      intro x hx
      obtain ⟨p, hp, hpx⟩ := List.mem_map.mp hx
      have hpo := hunk p.1 (List.of_mem_zip hp).1
      rw [← hpx, hpo]
      rfl
    have h2 : prodList ((obs.zip senss).map (fun p => involvedContribution p.2 p.1)) = 1 := by
      unfold prodList
      apply List.prod_eq_one
      intro x hx
      obtain ⟨p, hp, hpx⟩ := List.mem_map.mp hx
      have hpo := hunk p.1 (List.of_mem_zip hp).1
      rw [← hpx, hpo]
      rfl
    rw [hrw, h1, h2]
    simp

/-- Witness for C5: three modalities of sensitivity and specificity 0.8 with
all observations unknown fuse to false. -/
theorem combine_max_llh_formula_witness :
    maxLikelihood [Obs.unk, Obs.unk, Obs.unk] [4/5, 4/5, 4/5] [4/5, 4/5, 4/5] =
      false :=
  (combine_max_llh_formula [Obs.unk, Obs.unk, Obs.unk] [4/5, 4/5, 4/5]
    [4/5, 4/5, 4/5]).2 (by decide)

/-! ## Theorems: combine and absent modalities -/

/-- C9 (amended): requested modalities absent from the table are silently
skipped — `combine` behaves exactly as if called with the present ones only —
and `combine` returns a fused table whenever at least one requested modality
is present.  (With none present it fails: `diagnosis_stack[0]` raises.) -/
theorem combine_skips_absent (t : Table Key3 Obs)
    (modalities : List (String × ModalityConfig)) (method : CombineMethod) :
    combine t modalities method =
      combine t (modalities.filter (fun mc => t.getModalities.contains mc.1))
        method ∧
    (modalities.filter (fun mc => t.getModalities.contains mc.1) ≠ [] →
      (combine t modalities method).isSome = true) := by
  have hff : (modalities.filter (fun mc => t.getModalities.contains mc.1)).filter
      (fun mc => t.getModalities.contains mc.1) =
        modalities.filter (fun mc => t.getModalities.contains mc.1) := by
    rw [List.filter_filter]
    simp
  constructor
  · conv_rhs => rw [combine, hff]
    rw [combine]
  · intro hne
    rw [combine]
    cases hp : modalities.filter (fun mc => t.getModalities.contains mc.1) with
    | nil => exact absurd hp hne
    | cons a l => simp [hp]

/-- Witness for C9: with MRI requested but absent and CT present, `combine`
still returns a table. -/
theorem combine_skips_absent_witness :
    (combine ⟨1, [(("CT", "ipsi", "II"), [Obs.yes])]⟩
      [("CT", ⟨76/100, 81/100⟩), ("MRI", ⟨63/100, 81/100⟩)]
      .max_llh).isSome = true :=
  (combine_skips_absent _ _ _).2 (by decide)

/-- C9 counterexample: requesting only a modality that the table lacks makes
`combine` fail (empty diagnosis stack) instead of returning a fused table. -/
theorem combine_c9_counterexample :
    Table.getModalities
        (⟨1, [(("MRI", "ipsi", "II"), [Obs.yes])]⟩ : Table Key3 Obs) =
      ["MRI"] ∧
    combine ⟨1, [(("MRI", "ipsi", "II"), [Obs.yes])]⟩
      [("CT", ⟨76/100, 81/100⟩)] .max_llh = none := by
  constructor
  · rfl
  · rfl

/-! ## Theorems: update_and_expand -/

/-- Lookup in a concatenation tries the left part first. -/
theorem lookupVal_append {κ α : Type} [DecidableEq κ]
    (l1 l2 : List (κ × α)) (k : κ) :
    lookupVal (l1 ++ l2) k =
      match lookupVal l1 k with
      | some v => some v
      | none => lookupVal l2 k := by
  induction l1 with
  | nil => rfl
  | cons c l1 ih =>
    by_cases hk : c.1 = k
    · simp [lookupVal, hk]
    · simp [lookupVal, hk, ih]

/-- Lookup in the updated left frame of `updateAndExpand`. -/
theorem lookupVal_updated {κ α : Type} [DecidableEq κ]
    (right : List (κ × List (Option α))) (ow : Bool) (k : κ) :
    ∀ left : List (κ × List (Option α)),
      lookupVal (left.map (fun c =>
        match lookupVal right c.1 with
        | none => c
        | some rv => (c.1, List.zipWith (updateCell ow) c.2 rv))) k =
        match lookupVal left k with
        | none => none
        | some lv =>
          match lookupVal right k with
          | none => some lv
          | some rv => some (List.zipWith (updateCell ow) lv rv) := by
  intro left
  induction left with
  | nil => rfl
  | cons c left ih =>
    rw [List.map_cons]
    by_cases hk : c.1 = k
    · subst hk
      cases hr : lookupVal right c.1 with
      | none => simp [lookupVal, hr]
      | some rv => simp [lookupVal, hr]
    · cases hr : lookupVal right c.1 with
      | none => simp [lookupVal, hr, hk, ih]
      | some rv => simp [lookupVal, hr, hk, ih]

/-- Appending missing columns never changes an existing column. -/
theorem lookupVal_expand_of_some {κ α : Type} [DecidableEq κ]
    (right : List (κ × List (Option α))) :
    ∀ (acc : List (κ × List (Option α))) (k : κ) (v : List (Option α)),
      lookupVal acc k = some v →
      lookupVal
        (right.foldl
          (fun acc c => if (lookupVal acc c.1).isSome then acc else acc ++ [c])
          acc) k = some v := by
  induction right with
  | nil => intro acc k v h; exact h
  | cons c right ih =>
    intro acc k v h
    simp only [List.foldl_cons]
    by_cases hc : (lookupVal acc c.1).isSome
    · rw [if_pos hc]
      exact ih acc k v h
    · rw [if_neg hc]
      apply ih
      rw [lookupVal_append, h]

/-- A column missing from the accumulated frame ends up with the values the
right frame holds for it. -/
theorem lookupVal_expand_of_none {κ α : Type} [DecidableEq κ]
    (right : List (κ × List (Option α))) :
    ∀ (acc : List (κ × List (Option α))) (k : κ),
      lookupVal acc k = none →
      lookupVal
        (right.foldl
          (fun acc c => if (lookupVal acc c.1).isSome then acc else acc ++ [c])
          acc) k = lookupVal right k := by
  induction right with
  | nil => intro acc k h; exact h
  | cons c right ih =>
    intro acc k h
    simp only [List.foldl_cons]
    by_cases hk : c.1 = k
    · subst hk
      rw [if_neg (by simp [h])]
      have hacc : lookupVal (acc ++ [c]) c.1 = some c.2 := by
        rw [lookupVal_append, h]
        simp [lookupVal]
      rw [lookupVal_expand_of_some right (acc ++ [c]) c.1 c.2 hacc]
      simp [lookupVal]
    · by_cases hc : (lookupVal acc c.1).isSome
      · rw [if_pos hc]
        rw [ih acc k h]
        simp [lookupVal, hk]
      · rw [if_neg hc]
        have hacc : lookupVal (acc ++ [c]) k = none := by
          rw [lookupVal_append, h]
          simp [lookupVal, hk]
        rw [ih (acc ++ [c]) k hacc]
        simp [lookupVal, hk]

/-- C3 (amended): `update_and_expand` with the pandas default
`overwrite=True` overwrites cells of the left table with every non-null value
of the right table; a left cell is kept exactly where the right table is null
or lacks the column, and columns found only in the right table are appended.
Filling only previously-absent cells requires `overwrite=False`. -/
theorem update_and_expand_amended {κ α : Type} [DecidableEq κ] :
    (∀ (left right : List (κ × List (Option α))) (k : κ)
      (lv rv : List (Option α)),
      lookupVal left k = some lv → lookupVal right k = some rv →
      lookupVal (updateAndExpand left right true) k =
        some (List.zipWith
          (fun l r => match r with | some v => some v | none => l) lv rv)) ∧
    (∀ (left right : List (κ × List (Option α))) (k : κ)
      (lv : List (Option α)),
      lookupVal left k = some lv → lookupVal right k = none →
      lookupVal (updateAndExpand left right true) k = some lv) ∧
    (∀ (left right : List (κ × List (Option α))) (k : κ)
      (rv : List (Option α)),
      lookupVal left k = none → lookupVal right k = some rv →
      lookupVal (updateAndExpand left right true) k = some rv) ∧
    (∀ (left right : List (κ × List (Option α))) (k : κ)
      (lv rv : List (Option α)),
      lookupVal left k = some lv → lookupVal right k = some rv →
      lookupVal (updateAndExpand left right false) k =
        some (List.zipWith
          (fun l r => match l with | some v => some v | none => r) lv rv)) := by
  refine ⟨?_, ?_, ?_, ?_⟩
  · intro left right k lv rv hl hr
    unfold updateAndExpand
    apply lookupVal_expand_of_some
    rw [lookupVal_updated, hl, hr]
    rfl
  · intro left right k lv hl hr
    unfold updateAndExpand
    apply lookupVal_expand_of_some
    rw [lookupVal_updated, hl, hr]
  · intro left right k rv hl hr
    unfold updateAndExpand
    rw [lookupVal_expand_of_none]
    · exact hr
    · rw [lookupVal_updated, hl]
  · intro left right k lv rv hl hr
    unfold updateAndExpand
    apply lookupVal_expand_of_some
    rw [lookupVal_updated, hl, hr]
    rfl

/-- Witness for the amended C3 on the doctest example of
`update_and_expand`. -/
theorem update_and_expand_amended_witness :
    lookupVal
      (updateAndExpand
        [("a", [some (1 : Int), some 2, none]), ("b", [some 3, some 4, some 5])]
        [("a", [none, some 3, some 4]), ("c", [some 6, some 7, some 8])]
        true) "a" = some [some 1, some 3, some 4] :=
  update_and_expand_amended.1 _ _ "a" [some 1, some 2, none]
    [none, some 3, some 4] rfl rfl

/-- C3 counterexample: in the doctest example of `update_and_expand`, the left
table holds the known value 2 in column a, row 1, yet the merged table holds
the value 3 taken from the right table — a known cell is overwritten. -/
theorem update_and_expand_c3_counterexample :
    lookupVal
        [("a", [some (1 : Int), some 2, none]), ("b", [some 3, some 4, some 5])]
        "a" = some [some 1, some 2, none] ∧
    lookupVal
        (updateAndExpand
          [("a", [some (1 : Int), some 2, none]),
            ("b", [some 3, some 4, some 5])]
          [("a", [none, some 3, some 4]), ("c", [some 6, some 7, some 8])]
          true) "a" = some [some 1, some 3, some 4] ∧
    (some (2 : Int) ≠ none) ∧ ((some 3 : Option Int) ≠ some 2) := by
  refine ⟨rfl, rfl, by decide, by decide⟩

/-! ## Theorems: super- and sublevel inference -/

/-- A triple of a requested modality, side and subdivision occurs in the
`itertools.product` loop. -/
theorem mem_loopCombinations (modalities sides : List String)
    (subdivisions : List (String × List String)) (m s : String)
    (sd : String × List String) (hm : m ∈ modalities) (hs : s ∈ sides)
    (hsd : sd ∈ subdivisions) :
    (m, s, sd.1, sd.2) ∈ loopCombinations modalities sides subdivisions := by
  unfold loopCombinations
  refine List.mem_flatMap.mpr ⟨m, hm, ?_⟩
  refine List.mem_flatMap.mpr ⟨s, hs, ?_⟩
  exact List.mem_map.mpr ⟨sd, hsd, rfl⟩

/-- Every element of the `itertools.product` loop comes from the requested
modalities, sides and subdivisions. -/
theorem loopCombinations_mem (modalities sides : List String)
    (subdivisions : List (String × List String))
    (comb : String × String × String × List String)
    (h : comb ∈ loopCombinations modalities sides subdivisions) :
    comb.1 ∈ modalities ∧ comb.2.1 ∈ sides ∧
      (comb.2.2.1, comb.2.2.2) ∈ subdivisions := by
  unfold loopCombinations at h
  obtain ⟨m, hm, h⟩ := List.mem_flatMap.mp h
  obtain ⟨s, hs, h⟩ := List.mem_flatMap.mp h
  obtain ⟨sd, hsd, rfl⟩ := List.mem_map.mp h
  exact ⟨hm, hs, by simpa using hsd⟩

/-- C6: for every configured modality, side and superlevel whose column is
present, `infer_sublevels` marks every configured sublevel false on rows with
a false superlevel observation and unknown on all other rows, and the
returned table consists of nothing but such inferred sublevel columns. -/
theorem infer_sublevels_spec :
    (∀ (t : Table Key3 Obs) (modalities sides : List String)
      (subdivisions : List (String × List String))
      (modality side superlevel : String) (subids : List String)
      (subid : String) (vs : List Obs),
      modality ∈ modalities → side ∈ sides →
      (superlevel, subids) ∈ subdivisions → subid ∈ subids →
      t.lookupCol (modality, side, superlevel) = some vs →
      ((modality, side, superlevel ++ subid),
        vs.map (fun o => if o = Obs.no then Obs.no else Obs.unk)) ∈
        (t.inferSublevels modalities sides subdivisions).cols) ∧
    (∀ (t : Table Key3 Obs) (modalities sides : List String)
      (subdivisions : List (String × List String)) (key : Key3)
      (vals : List Obs),
      (key, vals) ∈ (t.inferSublevels modalities sides subdivisions).cols →
      ∃ modality side superlevel subids subid vs,
        modality ∈ modalities ∧ side ∈ sides ∧
        (superlevel, subids) ∈ subdivisions ∧ subid ∈ subids ∧
        t.lookupCol (modality, side, superlevel) = some vs ∧
        key = (modality, side, superlevel ++ subid) ∧
        vals = vs.map sublevelMark) := by
  constructor
  · intro t modalities sides subdivisions modality side superlevel subids
      subid vs hm hs hsd hsub hcol
    have hmap : vs.map (fun o => if o = Obs.no then Obs.no else Obs.unk) =
        vs.map sublevelMark := by
      apply List.map_congr_left
      intro o _
      cases o <;> rfl
    rw [hmap]
    simp only [Table.inferSublevels]
    refine List.mem_flatMap.mpr
      ⟨(modality, side, superlevel, subids),
        mem_loopCombinations modalities sides subdivisions modality side
          (superlevel, subids) hm hs hsd, ?_⟩
    simp only [hcol]
    exact List.mem_map.mpr ⟨subid, hsub, rfl⟩
  · intro t modalities sides subdivisions key vals hmem
    simp only [Table.inferSublevels] at hmem
    obtain ⟨comb, hcomb, hin⟩ := List.mem_flatMap.mp hmem
    obtain ⟨hm, hs, hsd⟩ :=
      loopCombinations_mem modalities sides subdivisions comb hcomb
    cases hcol : t.lookupCol (comb.1, comb.2.1, comb.2.2.1) with
    | none =>
      rw [hcol] at hin
      simp at hin
    | some vs =>
      rw [hcol] at hin
      obtain ⟨subid, hsub, heq⟩ := List.mem_map.mp hin
      cases heq
      exact ⟨comb.1, comb.2.1, comb.2.2.1, comb.2.2.2, subid, vs, hm, hs,
        hsd, hsub, hcol, rfl, rfl⟩

/-- Witness for C6: a present superlevel column (MRI, ipsi, II) with
observations false and true induces the sublevel column IIa with values
false and unknown. -/
theorem infer_sublevels_spec_witness :
    (("MRI", "ipsi", "IIa"), [Obs.no, Obs.unk]) ∈
      (Table.inferSublevels
        ⟨2, [(("MRI", "ipsi", "II"), [Obs.no, Obs.yes])]⟩
        ["MRI"] ["ipsi"] defaultSubdivisions).cols :=
  infer_sublevels_spec.1 _ ["MRI"] ["ipsi"] defaultSubdivisions "MRI" "ipsi"
    "II" ["a", "b"] "a" [Obs.no, Obs.yes] (by decide) (by decide) (by decide)
    (by decide) rfl

/-- C4 (amended): for every configured modality, side and superlevel whose
sublevel columns are all present, `infer_superlevels` assigns per row: true if
any sublevel is true, else unknown if all sublevels are unknown, else false —
so all-false rows give false, any-true rows give true, all-unknown rows give
unknown, and rows mixing false and unknown (with no true) give false, not
unknown. -/
theorem infer_superlevels_amended :
    (∀ (t : Table Key3 Obs) (modalities sides : List String)
      (subdivisions : List (String × List String))
      (modality side superlevel : String) (subids : List String)
      (colVals : List (List Obs)),
      modality ∈ modalities → side ∈ sides →
      (superlevel, subids) ∈ subdivisions →
      (subids.map (fun subid => (modality, side, superlevel ++ subid))).mapM
        t.lookupCol = some colVals →
      ((modality, side, superlevel),
        (List.range t.nrows).map (fun i =>
          superlevelMark (colVals.map (fun vs => vs.getD i Obs.unk)))) ∈
        (t.inferSuperlevels modalities sides subdivisions).cols) ∧
    (∀ row : List Obs, row ≠ [] →
      ((∀ o ∈ row, o = Obs.no) → superlevelMark row = Obs.no) ∧
      (Obs.yes ∈ row → superlevelMark row = Obs.yes) ∧
      ((∀ o ∈ row, o = Obs.unk) → superlevelMark row = Obs.unk) ∧
      (Obs.yes ∉ row → Obs.no ∈ row → superlevelMark row = Obs.no)) := by
  constructor
  · intro t modalities sides subdivisions modality side superlevel subids
      colVals hm hs hsd hcols
    simp only [Table.inferSuperlevels]
    refine List.mem_flatMap.mpr
      ⟨(modality, side, superlevel, subids),
        mem_loopCombinations modalities sides subdivisions modality side
          (superlevel, subids) hm hs hsd, ?_⟩
    simp only [hcols]
    exact List.mem_singleton.mpr rfl
  · intro row hrow
    refine ⟨?_, ?_, ?_, ?_⟩
    · intro hall
      have hany : row.any (· == Obs.yes) = false := by
        rw [List.any_eq_false]
        intro x hx
        rw [hall x hx]
        decide
      have hunk : row.all (· == Obs.unk) = false := by
        cases row with
        | nil => exact absurd rfl hrow
        | cons r rs =>
          have hr := hall r (List.mem_cons_self r rs)
          subst hr
          simp [List.all_cons]
      simp [superlevelMark, hany, hunk]
    · intro hyes
      have hany : row.any (· == Obs.yes) = true :=
        List.any_eq_true.mpr ⟨Obs.yes, hyes, by decide⟩
      simp [superlevelMark, hany]
    · intro hall
      have hany : row.any (· == Obs.yes) = false := by
        rw [List.any_eq_false]
        intro x hx
        rw [hall x hx]
        decide
      have hunk : row.all (· == Obs.unk) = true := by
        rw [List.all_eq_true]
        intro x hx
        rw [hall x hx]
        decide
      simp [superlevelMark, hany, hunk]
    · intro hyes hno
      have hany : row.any (· == Obs.yes) = false := by
        rw [List.any_eq_false]
        intro x hx
        cases hxv : x == Obs.yes
        · simp
        · exact absurd (by rw [← eq_of_beq hxv]; exact hx) hyes
      have hunk : row.all (· == Obs.unk) = false := by
        cases hv : row.all (· == Obs.unk)
        · rfl
        · have hcon := List.all_eq_true.mp hv Obs.no hno
          exact absurd hcon (by decide)
      simp [superlevelMark, hany, hunk]

/-- Witness for the amended C4 on a one-row table whose sublevels read false
and unknown: the inferred superlevel is false. -/
theorem infer_superlevels_amended_witness :
    ((("MRI", "ipsi", "II"), [Obs.no]) ∈
      (Table.inferSuperlevels
        ⟨1, [(("MRI", "ipsi", "IIa"), [Obs.no]),
          (("MRI", "ipsi", "IIb"), [Obs.unk])]⟩
        ["MRI"] ["ipsi"] [("II", ["a", "b"])]).cols) ∧
    superlevelMark [Obs.no, Obs.unk] = Obs.no :=
  ⟨infer_superlevels_amended.1 _ ["MRI"] ["ipsi"] [("II", ["a", "b"])] "MRI"
      "ipsi" "II" ["a", "b"] [[Obs.no], [Obs.unk]] (by decide) (by decide)
      (by decide) rfl,
    (infer_superlevels_amended.2 [Obs.no, Obs.unk] (by decide)).2.2.2
      (by decide) (by decide)⟩

/-- C4 counterexample: a row whose sublevels are false and unknown (no true)
receives the superlevel value false, not the unknown value the claim
predicts. -/
theorem infer_superlevels_c4_counterexample :
    (Table.inferSuperlevels
        ⟨1, [(("MRI", "ipsi", "IIa"), [Obs.no]),
          (("MRI", "ipsi", "IIb"), [Obs.unk])]⟩
        ["MRI"] ["ipsi"] [("II", ["a", "b"])]).cols =
      [(("MRI", "ipsi", "II"), [Obs.no])] ∧ Obs.no ≠ Obs.unk :=
  ⟨rfl, by decide⟩

/-! ## Theorems: transform engine -/

/-- C1 (amended): a function failure in any destination column aborts the
whole transform.  A transform that returns a table processed every column of
the mapping successfully — so a failure anywhere prevents any output, and any
failing column makes the column loop raise. -/
theorem transform_c1_amended :
    (∀ (raw : RawTable) (cmap : List (List String × PyVal))
      (out : List (List String × List Val)),
      processColumns raw cmap = .ok out →
      ∀ ki ∈ cmap, ∃ vals,
        evalColumn raw ki.1 ki.2 = .ok vals ∧ (ki.1, vals) ∈ out) ∧
    (∀ (raw : RawTable) (cmap : List (List String × PyVal)),
      (∃ ki ∈ cmap, ∃ e, evalColumn raw ki.1 ki.2 = .error e) →
      ∃ e2, processColumns raw cmap = .error e2) := by
  constructor
  · intro raw cmap
    induction cmap with
    | nil =>
      intro out _ ki hki
      exact absurd hki (List.not_mem_nil ki)
    | cons c rest ih =>
      intro out hout ki hki
      obtain ⟨key, inst⟩ := c
      cases hev : evalColumn raw key inst with
      | error e => rw [processColumns, hev] at hout; exact Except.noConfusion hout
      | ok vals =>
        cases hrest : processColumns raw rest with
        | error e =>
          rw [processColumns, hev, hrest] at hout
          exact Except.noConfusion hout
        | ok out2 =>
          rw [processColumns, hev, hrest] at hout
          cases hout
          rcases List.mem_cons.mp hki with h | hmem
          · subst h
            exact ⟨vals, hev, List.mem_cons_self _ _⟩
          · obtain ⟨vals2, h1, h2⟩ := ih out2 hrest ki hmem
            exact ⟨vals2, h1, List.mem_cons_of_mem _ h2⟩
  · intro raw cmap
    induction cmap with
    | nil =>
      rintro ⟨ki, hki, _⟩
      exact absurd hki (List.not_mem_nil ki)
    | cons c rest ih =>
      rintro ⟨ki, hki, e, he⟩
      obtain ⟨key, inst⟩ := c
      cases hev : evalColumn raw key inst with
      | error e2 => exact ⟨e2, by rw [processColumns, hev]⟩
      | ok vals =>
        rcases List.mem_cons.mp hki with h | hmem
        · subst h
          rw [hev] at he
          exact Except.noConfusion he
        · obtain ⟨e2, he2⟩ := ih ⟨ki, hmem, e, he⟩
          exact ⟨e2, by rw [processColumns, hev, he2]⟩

/-- Witness for the amended C1: a one-column map with a constant default is
processed completely, its column appearing in the output. -/
theorem transform_c1_amended_witness :
    ∃ vals,
      evalColumn exampleC1Raw ["x"]
          (PyVal.dict (.cons ("default") (.scalar (.val (.int 5))) .nil)) =
        .ok vals ∧
      (["x"], vals) ∈ [(["x"], [Val.int 5])] :=
  transform_c1_amended.1 exampleC1Raw
    [(["x"], PyVal.dict (.cons ("default") (.scalar (.val (.int 5))) .nil))]
    [(["x"], [Val.int 5])] rfl
    (["x"], PyVal.dict (.cons ("default") (.scalar (.val (.int 5))) .nil))
    (List.mem_singleton.mpr rfl)

/-- C1 counterexample: with the age column raising and the name column well
formed, the transform aborts with a `ParsingError` naming the age column and
produces no output at all — the name column appears nowhere. -/
theorem transform_c1_counterexample :
    transformToLyprox exampleC1Raw exampleC1Map =
      .error ("Exception encountered while parsing column (patient, #, age)") ∧
    ∀ out, transformToLyprox exampleC1Raw exampleC1Map ≠ .ok out := by
  have h1 : transformToLyprox exampleC1Raw exampleC1Map =
      .error ("Exception encountered while parsing column (patient, #, age)") :=
    rfl
  refine ⟨h1, fun out h => ?_⟩
  rw [h1] at h
  exact Except.noConfusion h

/-- The first branch of a uniform instruction tree reports the common leaf
depth. -/
theorem getDepth_uniform :
    ∀ (d : Nat) (m : PyDict), instrUniform d m = true → m ≠ PyDict.nil →
      getDepth m = .ok d := by
  intro d
  induction d with
  | zero =>
    intro m h _
    rw [instrUniform] at h
    exact Bool.noConfusion h
  | succ d ih =>
    intro m h hne
    cases m with
    | nil => exact absurd rfl hne
    | cons k v rest =>
      cases d with
      | zero =>
        cases v with
        | scalar l => rw [instrUniform] at h; exact Bool.noConfusion h
        | dict sub =>
          rw [instrUniform, Bool.and_eq_true] at h
          rw [getDepth, if_pos h.1]
      | succ d2 =>
        cases v with
        | scalar l => rw [instrUniform] at h; exact Bool.noConfusion h
        | dict sub =>
          rw [instrUniform] at h
          simp only [Bool.and_eq_true, Bool.not_eq_true'] at h
          obtain ⟨⟨⟨hleaf, hnil⟩, huni⟩, _⟩ := h
          have hsubne : sub ≠ PyDict.nil := by
            intro hsub
            rw [hsub] at hnil
            exact Bool.noConfusion hnil
          have hsub := ih sub huni hsubne
          rw [getDepth, if_neg (by rw [hleaf]; exact Bool.noConfusion), hsub]
          have harith : 1 + (d2 + 1) = d2 + 2 := by omega
          simp [Except.map, harith]

/-- C2 (amended): `get_depth` inspects only the first branch of the mapping
tree — its result is independent of every entry after the first — and on a
tree whose leaf instructions all sit at one uniform depth it reports that
depth.  A depth mismatch in a later branch is therefore not detected up
front; it is silently absorbed or surfaces only as a per-column error during
processing. -/
theorem get_depth_c2_amended :
    (∀ (k : String) (v : PyVal) (rest rest2 : PyDict),
      getDepth (PyDict.cons k v rest) = getDepth (PyDict.cons k v rest2)) ∧
    (∀ (d : Nat) (m : PyDict), instrUniform d m = true → m ≠ PyDict.nil →
      getDepth m = .ok d) := by
  constructor
  · intro k v rest rest2
    cases v with
    | scalar l => rfl
    | dict sub => rfl
  · exact getDepth_uniform

/-- Witness for the amended C2: the depth of the age/name mapping tree is
computed as 3, its uniform leaf depth. -/
theorem get_depth_c2_amended_witness :
    getDepth exampleC1Map = .ok 3 :=
  get_depth_c2_amended.2 3 exampleC1Map rfl
    (fun h => PyDict.noConfusion h)

/-- C2 counterexample: a mapping whose leaf instructions sit at depths 2, 2
and 3 is not uniform, yet `get_depth` reports 2 and the whole transform runs
to completion without any configuration error — the depth mismatch is never
detected, and the deeper leaf is silently swallowed by the instruction above
it. -/
theorem transform_c2_counterexample :
    uniformLeafDepths exampleC2Map = false ∧
    getDepth exampleC2Map = .ok 2 ∧
    transformToLyprox exampleC2Raw exampleC2Map =
      .ok [(["a", "x"], [Val.int 1]), (["b", "c"], [Val.int 2])] :=
  ⟨rfl, rfl, rfl⟩

/-! ## Theorems: flatten/unflatten roundtrip -/

/-- List-style induction for the dictionary half of the mutual value type;
the values are not traversed. -/
theorem PyDict.recList {motive : PyDict → Prop} (hnil : motive .nil)
    (hcons : ∀ k v rest, motive rest → motive (.cons k v rest)) :
    ∀ es, motive es := by
  have H : ∀ (n : Nat) (es : PyDict), sizeOf es ≤ n → motive es := by
    intro n
    induction n with
    | zero =>
      intro es h
      cases es with
      | nil => exact hnil
      | cons k v rest => simp at h
    | succ n ih =>
      intro es h
      cases es with
      | nil => exact hnil
      | cons k v rest =>
        refine hcons k v rest (ih rest ?_)
        simp at h
        omega
  intro es
  exact H (sizeOf es) es le_rfl

theorem append_nil_right : ∀ es : PyDict, es.append .nil = es := by
  intro es
  induction es using PyDict.recList with
  | hnil => rfl
  | hcons k v rest ih => simp [PyDict.append, ih]

theorem append_assoc (b c : PyDict) :
    ∀ a : PyDict, (a.append b).append c = a.append (b.append c) := by
  intro a
  induction a using PyDict.recList with
  | hnil => rfl
  | hcons k v rest ih => simp [PyDict.append, ih]

theorem get?_setKey_self (k : String) (v : PyVal) :
    ∀ es : PyDict, (es.setKey k v).get? k = some v := by
  intro es
  induction es using PyDict.recList with
  | hnil => simp [PyDict.setKey, PyDict.get?]
  | hcons k2 w rest ih =>
    cases hk : (k2 == k) <;> simp [PyDict.setKey, PyDict.get?, hk, ih]

theorem setKey_setKey (k : String) (v w : PyVal) :
    ∀ es : PyDict, (es.setKey k v).setKey k w = es.setKey k w := by
  intro es
  induction es using PyDict.recList with
  | hnil => simp [PyDict.setKey]
  | hcons k2 u rest ih =>
    cases hk : (k2 == k) <;> simp [PyDict.setKey, hk, ih]

theorem setKey_absent (k : String) (v : PyVal) :
    ∀ es : PyDict, es.get? k = Option.none →
      es.setKey k v = es.append (.cons k v .nil) := by
  intro es
  induction es using PyDict.recList with
  | hnil => intro _; rfl
  | hcons k2 w rest ih =>
    intro hget
    cases hk : (k2 == k) with
    | true => simp [PyDict.get?, hk] at hget
    | false => simp [PyDict.setKey, PyDict.append, hk,
        ih (by simpa [PyDict.get?, hk] using hget)]

theorem setKey_present_self (k : String) :
    ∀ (es : PyDict) (v : PyVal), es.get? k = some v → es.setKey k v = es := by
  intro es
  induction es using PyDict.recList with
  | hnil => intro v hget; simp [PyDict.get?] at hget
  | hcons k2 w rest ih =>
    intro v hget
    cases hk : (k2 == k) with
    | true =>
      rw [PyDict.get?, if_pos hk] at hget
      cases hget
      simp [PyDict.setKey, hk]
    | false =>
      rw [PyDict.get?, if_neg (by simp [hk])] at hget
      simp [PyDict.setKey, hk, ih v hget]

theorem get?_append (k : String) (b : PyDict) :
    ∀ a : PyDict, (a.append b).get? k =
      match a.get? k with
      | some v => some v
      | Option.none => b.get? k := by
  intro a
  induction a using PyDict.recList with
  | hnil => rfl
  | hcons k2 w rest ih =>
    cases hk : (k2 == k) <;> simp [PyDict.append, PyDict.get?, hk, ih]

theorem isNil_false_ne_nil {es : PyDict} (h : es.isNil = false) :
    es ≠ PyDict.nil := by
  cases es with
  | nil => exact absurd h (by simp [PyDict.isNil])
  | cons k v rest => intro hcon; exact PyDict.noConfusion hcon

theorem insertAll_append (l2 : List (List String × PyVal)) :
    ∀ (l1 : List (List String × PyVal)) (acc : PyDict),
      insertAll acc (l1 ++ l2) =
        match insertAll acc l1 with
        | .ok acc2 => insertAll acc2 l2
        | .error e => .error e := by
  intro l1
  induction l1 with
  | nil => intro acc; rfl
  | cons kv l1 ih =>
    intro acc
    obtain ⟨ks, v⟩ := kv
    simp only [List.cons_append, insertAll]
    cases hip : insertPath acc ks v with
    | error e => rfl
    | ok acc2 => exact ih acc2

theorem flatRel_key_ne_nil :
    ∀ (n : Nat) (m : PyDict), sizeOf m ≤ n →
      ∀ (r : Nat) (kv : List String × PyVal), kv ∈ flatRel r m →
        kv.1 ≠ [] := by
  intro n
  induction n with
  | zero =>
    intro m h r kv hkv
    cases m with
    | nil => simp [flatRel] at hkv
    | cons k v rest => simp at h
  | succ n ih =>
    intro m h r kv hkv
    cases m with
    | nil => simp [flatRel] at hkv
    | cons k v rest =>
      have hsrest : sizeOf rest ≤ n := by simp at h; omega
      cases v with
      | scalar l =>
        rw [flatRel] at hkv
        rcases List.mem_cons.mp hkv with h1 | h2
        · subst h1; simp
        · exact ih rest hsrest r kv h2
      | dict sub =>
        rw [flatRel] at hkv
        rcases List.mem_append.mp hkv with h1 | h2
        · by_cases hr : r ≤ 1
          · rw [if_pos hr] at h1
            rcases List.mem_singleton.mp h1 with rfl
            simp
          · rw [if_neg hr] at h1
            obtain ⟨kv2, _, rfl⟩ := List.mem_map.mp h1
            simp
        · exact ih rest hsrest r kv h2

theorem flatRel_ne_nil :
    ∀ (n : Nat) (m : PyDict), sizeOf m ≤ n →
      ∀ d : Nat, wfEntrySeq d m = true → m ≠ PyDict.nil →
        flatRel d m ≠ [] := by
  intro n
  induction n with
  | zero =>
    intro m h d _ hne
    cases m with
    | nil => exact absurd rfl hne
    | cons k v rest => simp at h
  | succ n ih =>
    intro m h d hwf hne
    cases m with
    | nil => exact absurd rfl hne
    | cons k v rest =>
      cases v with
      | scalar l => rw [flatRel]; simp
      | dict sub =>
        cases d with
        | zero => rw [wfEntrySeq] at hwf; exact Bool.noConfusion hwf
        | succ d1 =>
          cases d1 with
          | zero => rw [flatRel, if_pos (by omega)]; simp
          | succ d2 =>
            rw [wfEntrySeq] at hwf
            simp only [valuesOf, List.all_cons, Bool.and_eq_true] at hwf
            obtain ⟨_, ⟨hsub, hsubnil⟩, _⟩ := hwf
            have hsubne : sub ≠ PyDict.nil :=
              isNil_false_ne_nil (by simpa using hsubnil)
            have hsize : sizeOf sub ≤ n := by simp at h; omega
            rw [flatRel, if_neg (by omega)]
            intro hcon
            rcases List.append_eq_nil.mp hcon with ⟨hmap, _⟩
            exact ih sub hsize (d2 + 1) hsub hsubne (List.map_eq_nil_iff.mp hmap)

theorem insertAll_prefixed_present (k : String) :
    ∀ (batch : List (List String × PyVal)) (acc sub : PyDict),
      acc.get? k = some (PyVal.dict sub) →
      (∀ kv ∈ batch, kv.1 ≠ []) →
      insertAll acc (batch.map (fun kv => (k :: kv.1, kv.2))) =
        Except.map (fun d2 => acc.setKey k (PyVal.dict d2))
          (insertAll sub batch) := by
  intro batch
  induction batch with
  | nil =>
    intro acc sub hget _
    simp only [List.map_nil, insertAll, Except.map]
    rw [setKey_present_self k acc (PyVal.dict sub) hget]
  | cons kv rest ih =>
    intro acc sub hget hne
    obtain ⟨ks, v⟩ := kv
    have hks : ks ≠ [] := hne (ks, v) (List.mem_cons_self _ _)
    cases ks with
    | nil => exact absurd rfl hks
    | cons k2 ks2 =>
      simp only [List.map_cons, insertAll, insertPath, hget]
      cases hip : insertPath sub (k2 :: ks2) v with
      | error e => simp only [hip, Except.map]
      | ok sub2 =>
        simp only [hip, Except.map]
        rw [ih (acc.setKey k (PyVal.dict sub2)) sub2 (get?_setKey_self k _ acc)
          (fun kv2 hkv2 => hne kv2 (List.mem_cons_of_mem _ hkv2))]
        cases insertAll sub2 rest with
        | error e => rfl
        | ok dfin =>
          simp only [Except.map]
          rw [setKey_setKey]

theorem insertAll_prefixed_absent (k : String) :
    ∀ (batch : List (List String × PyVal)) (acc : PyDict),
      acc.get? k = Option.none →
      (∀ kv ∈ batch, kv.1 ≠ []) → batch ≠ [] →
      insertAll acc (batch.map (fun kv => (k :: kv.1, kv.2))) =
        Except.map (fun d2 => acc.setKey k (PyVal.dict d2))
          (insertAll PyDict.nil batch) := by
  intro batch
  cases batch with
  | nil => intro acc _ _ hne; exact absurd rfl hne
  | cons kv rest =>
    intro acc hget hne _
    obtain ⟨ks, v⟩ := kv
    have hks : ks ≠ [] := hne (ks, v) (List.mem_cons_self _ _)
    cases ks with
    | nil => exact absurd rfl hks
    | cons k2 ks2 =>
      simp only [List.map_cons, insertAll, insertPath, hget]
      cases hip : insertPath PyDict.nil (k2 :: ks2) v with
      | error e =>
        simp only [hip, Except.map]
      | ok sub1 =>
        simp only [hip, Except.map]
        rw [insertAll_prefixed_present k rest (acc.setKey k (PyVal.dict sub1))
          sub1 (get?_setKey_self k _ acc)
          (fun kv2 hkv2 => hne kv2 (List.mem_cons_of_mem _ hkv2))]
        cases insertAll sub1 rest with
        | error e => rfl
        | ok dfin =>
          simp only [Except.map]
          rw [setKey_setKey]

theorem insertAll_flatRel_go :
    ∀ (n : Nat) (m : PyDict), sizeOf m ≤ n →
      ∀ (d : Nat) (acc : PyDict),
        wfEntrySeq d m = true →
        (∀ key ∈ keysOf m, acc.get? key = Option.none) →
        insertAll acc (flatRel d m) = .ok (acc.append m) := by
  intro n
  induction n with
  | zero =>
    intro m h
    cases m with
    | nil => intro d acc _ _; simp [flatRel, insertAll, append_nil_right]
    | cons k v rest => simp at h
  | succ n ih =>
    intro m h d acc hwf hdisj
    cases m with
    | nil => simp [flatRel, insertAll, append_nil_right]
    | cons k v rest =>
      have hsrest : sizeOf rest ≤ n := by simp at h; omega
      have hk_none : acc.get? k = Option.none := hdisj k (by simp [keysOf])
      cases d with
      | zero => rw [wfEntrySeq] at hwf; exact Bool.noConfusion hwf
      | succ d1 =>
        cases d1 with
        | zero =>
          have hnodup : (k :: keysOf rest).Nodup := by
            rw [wfEntrySeq] at hwf
            simpa [keysOf] using of_decide_eq_true hwf
          obtain ⟨hknotin, hnodrest⟩ := List.nodup_cons.mp hnodup
          have hflat : flatRel 1 (PyDict.cons k v rest) =
              ([k], v) :: flatRel 1 rest := by
            cases v <;> simp [flatRel]
          rw [hflat, insertAll, insertPath]
          rw [setKey_absent k v acc hk_none]
          show insertAll (acc.append (.cons k v .nil)) (flatRel 1 rest) =
            Except.ok (acc.append (PyDict.cons k v rest))
          rw [ih rest hsrest 1 (acc.append (.cons k v .nil))
            (by rw [wfEntrySeq]; exact decide_eq_true hnodrest)
            ?_]
          · rw [append_assoc]
            rfl
          · intro key hkey
            rw [get?_append, hdisj key (by simp [keysOf, hkey])]
            have hkne : (k == key) = false := by
              have : k ≠ key := fun hcon => hknotin (hcon ▸ hkey)
              simpa using this
            simp [PyDict.get?, hkne]
        | succ d2 =>
          rw [wfEntrySeq] at hwf
          simp only [valuesOf, List.all_cons, Bool.and_eq_true] at hwf
          obtain ⟨hnodup0, hv, hallrest⟩ := hwf
          have hnodup : (k :: keysOf rest).Nodup := by
            simpa [keysOf] using of_decide_eq_true hnodup0
          obtain ⟨hknotin, hnodrest⟩ := List.nodup_cons.mp hnodup
          cases v with
          | scalar l => exact Bool.noConfusion hv
          | dict sub =>
            rw [Bool.and_eq_true] at hv
            obtain ⟨hsub, hsubnil⟩ := hv
            have hsubne : sub ≠ PyDict.nil :=
              isNil_false_ne_nil (by simpa using hsubnil)
            have hssub : sizeOf sub ≤ n := by simp at h; omega
            have hflat : flatRel (d2 + 2) (PyDict.cons k (PyVal.dict sub) rest) =
                ((flatRel (d2 + 1) sub).map (fun kv => (k :: kv.1, kv.2))) ++
                  flatRel (d2 + 2) rest := by
              rw [flatRel, if_neg (by omega)]
              norm_num
            rw [hflat, insertAll_append]
            rw [insertAll_prefixed_absent k (flatRel (d2 + 1) sub) acc hk_none
              (fun kv hkv => flatRel_key_ne_nil (sizeOf sub) sub le_rfl
                (d2 + 1) kv hkv)
              (flatRel_ne_nil (sizeOf sub) sub le_rfl (d2 + 1) hsub hsubne)]
            rw [ih sub hssub (d2 + 1) PyDict.nil hsub (fun key _ => rfl)]
            have happ : PyDict.append PyDict.nil sub = sub := rfl
            rw [happ]
            simp only [Except.map]
            rw [setKey_absent k (PyVal.dict sub) acc hk_none]
            show insertAll (acc.append (.cons k (PyVal.dict sub) .nil))
                (flatRel (d2 + 2) rest) =
              Except.ok (acc.append (PyDict.cons k (PyVal.dict sub) rest))
            rw [ih rest hsrest (d2 + 2)
              (acc.append (.cons k (PyVal.dict sub) .nil))
              (by rw [wfEntrySeq, Bool.and_eq_true]
                  exact ⟨decide_eq_true hnodrest, hallrest⟩)
              ?_]
            · rw [append_assoc]
              rfl
            · intro key hkey
              rw [get?_append, hdisj key (by simp [keysOf, hkey])]
              have hkne : (k == key) = false := by
                have : k ≠ key := fun hcon => hknotin (hcon ▸ hkey)
                simpa using this
              simp [PyDict.get?, hkne]

theorem flattenAux_eq_flatRel :
    ∀ (n : Nat) (m : PyDict), sizeOf m ≤ n →
      ∀ (d : Nat) (p : List String),
        flattenAux d p m =
          (flatRel (d - p.length) m).map (fun kv => (p ++ kv.1, kv.2)) := by
  intro n
  induction n with
  | zero =>
    intro m h
    cases m with
    | nil => intro d p; rfl
    | cons k v rest => simp at h
  | succ n ih =>
    intro m h d p
    cases m with
    | nil => rfl
    | cons k v rest =>
      have hsrest : sizeOf rest ≤ n := by simp at h; omega
      cases v with
      | scalar l =>
        rw [flattenAux, flatRel]
        simp only [List.map_cons]
        rw [ih rest hsrest d p]
      | dict sub =>
        have hssub : sizeOf sub ≤ n := by simp at h; omega
        by_cases hreach : p.length + 1 ≥ d
        · rw [flattenAux, if_pos hreach, flatRel, if_pos (by omega)]
          simp only [List.map_append, List.map_cons, List.map_nil]
          rw [ih rest hsrest d p]
        · rw [flattenAux, if_neg hreach, flatRel, if_neg (by omega)]
          simp only [List.map_append, List.map_map]
          rw [ih rest hsrest d p, ih sub hssub d (p ++ [k])]
          congr 1
          have harith : d - (p ++ [k]).length = d - p.length - 1 := by
            simp [List.length_append]
            omega
          rw [harith]
          apply List.map_congr_left
          intro kv _
          simp [Function.comp]

/-- C10 (amended): on a non-empty mapping tree whose leaves all sit at depth
`d`, where every dictionary above the leaves is non-empty — the necessary
strengthening — and keys are distinct at each level (a Python dictionary
invariant), flattening to depth `d` and unflattening restores the tree
exactly. -/
theorem flatten_unflatten_roundtrip :
    ∀ (d : Nat) (m : PyDict), wfMapping d m = true →
      unflatten (flatten m d) = .ok m := by
  intro d m hwf
  rw [wfMapping, Bool.and_eq_true] at hwf
  obtain ⟨hseq, _⟩ := hwf
  rw [flatten, unflatten]
  rw [flattenAux_eq_flatRel (sizeOf m) m le_rfl d []]
  simp only [List.length_nil, Nat.sub_zero, List.nil_append]
  have hmapid :
      (flatRel d m).map (fun kv : List String × PyVal => (kv.1, kv.2)) =
        flatRel d m := by
    apply List.map_id''
    intro kv
    rfl
  rw [hmapid]
  exact insertAll_flatRel_go (sizeOf m) m le_rfl d PyDict.nil hseq
    (fun key _ => rfl)

/-- Witness for the amended C10: the doctest tree of `flatten`, with two
leaves at depth 3, survives the roundtrip. -/
theorem flatten_unflatten_roundtrip_witness :
    unflatten (flatten exampleRoundtripMap 3) = .ok exampleRoundtripMap :=
  flatten_unflatten_roundtrip 3 exampleRoundtripMap rfl

/-- C10 counterexample: the non-empty map whose single value is an empty
dictionary is uniform at depth 2 in the claim's own sense (every value above
depth 2 is a dictionary, keys are distinct), yet flattening produces the
empty flat map and unflattening returns the empty dictionary, not the
original. -/
theorem flatten_unflatten_c10_counterexample :
    depthUniform 2 exampleEmptyLeafMap = true ∧
    (keysOf exampleEmptyLeafMap).Nodup ∧
    exampleEmptyLeafMap ≠ PyDict.nil ∧
    unflatten (flatten exampleEmptyLeafMap 2) = .ok PyDict.nil ∧
    PyDict.nil ≠ exampleEmptyLeafMap := by
  refine ⟨rfl, by decide, fun hcon => PyDict.noConfusion hcon, rfl,
    fun hcon => PyDict.noConfusion hcon⟩

end Lydata
